import Mathlib

/-!
# Verification of the UCSD prerequisite parser and graph compiler

Shallow embedding of `ucsd_scraper/parse_prereqs.py`: the course-code
extractor (`COURSE_CODE_RE` / `extract_course_codes`), the prerequisite
clause parser (`parse_prereq_raw`) and the edge compiler
(`build_prereq_edges`), together with theorems settling the specification
claims about them.

Strings are modelled as `List Char`.  Character classes model the ASCII
fragment of the Python regex classes actually exercised by catalog text:
`[A-Z]`, `[a-z]`, `\d` as `[0-9]`, and `\s` as the six ASCII whitespace
characters.
-/

namespace UcsdPrereqs

/-- The `[A-Z]` character class. -/
def isUp (c : Char) : Bool := 65 ≤ c.toNat && c.toNat ≤ 90

/-- The `[a-z]` character class (reachable through `re.IGNORECASE`). -/
def isLow (c : Char) : Bool := 97 ≤ c.toNat && c.toNat ≤ 122

/-- The `\d` character class (ASCII digits). -/
def isDig (c : Char) : Bool := 48 ≤ c.toNat && c.toNat ≤ 57

/-- The `\s` character class: space, tab, newline, carriage return,
vertical tab, form feed. -/
def isSpaceC (c : Char) : Bool :=
  c.toNat = 32 || c.toNat = 9 || c.toNat = 10 ||
  c.toNat = 13 || c.toNat = 11 || c.toNat = 12

/-- The characters stripped as trailing punctuation: `.`, `,`, `;`. -/
def punctC (c : Char) : Bool := c.toNat = 46 || c.toNat = 44 || c.toNat = 59

/-- Python `str.lstrip()` restricted to the modelled whitespace set. -/
def lstripWS (s : List Char) : List Char := s.dropWhile isSpaceC

/-- Python `str.rstrip()` restricted to the modelled whitespace set. -/
def rstripWS (s : List Char) : List Char := (s.reverse.dropWhile isSpaceC).reverse

/-- Python `str.strip()` restricted to the modelled whitespace set. -/
def stripWS (s : List Char) : List Char := rstripWS (lstripWS s)

/-- Python `str.rstrip(".,;")`. -/
def rstripPunct (s : List Char) : List Char := (s.reverse.dropWhile punctC).reverse

/-- Python `s.split()[0]` for a string whose first field exists: drop
leading whitespace, then take the maximal run of non-whitespace. -/
def firstField (s : List Char) : List Char :=
  (s.dropWhile isSpaceC).takeWhile (fun c => !isSpaceC c)

/-- Worker for `collapseWS`: the flag records whether the previous
character belonged to a whitespace run (whose single replacement space was
already emitted). -/
def collapseWSAux : Bool → List Char → List Char
  | _, [] => []
  | inWS, c :: rest =>
    if isSpaceC c then
      if inWS then collapseWSAux true rest
      else ' ' :: collapseWSAux true rest
    else c :: collapseWSAux false rest

/-- Model of `re.sub(r"\s+", " ", text)`: replace every maximal whitespace run
by a single space. -/
def collapseWS (s : List Char) : List Char := collapseWSAux false s

/-- One backtracking attempt of `COURSE_CODE_RE = [A-Z]{2,4} \d+[A-Z]*` at
the head of `l`, with the letter counter fixed to `k`: `k` uppercase
letters, a space, a maximal nonempty digit run, a maximal uppercase run.
Returns the matched text and the remainder of the input. -/
def ccTryK (k : Nat) (l : List Char) : Option (List Char × List Char) :=
  let letters := l.take k
  if letters.length = k ∧ letters.all isUp then
    match l.drop k with
    | ' ' :: rest =>
      let digs := rest.takeWhile isDig
      if digs = [] then none
      else
        let rest2 := rest.drop digs.length
        let sufs := rest2.takeWhile isUp
        some (letters ++ ' ' :: (digs ++ sufs), rest2.drop sufs.length)
    | _ => none
  else none

/-- The pattern `COURSE_CODE_RE` matched at the head of `l`: the greedy
counter of the 2-to-4 letter class tries 4, then 3, then 2 letters. -/
def matchCCAt (l : List Char) : Option (List Char × List Char) :=
  match ccTryK 4 l with
  | some r => some r
  | none =>
    match ccTryK 3 l with
    | some r => some r
    | none => ccTryK 2 l

/-- Model of `COURSE_CODE_RE.finditer`: scan left to right, at each position try the
pattern; on a match emit it and resume after its end.  `fuel` bounds the
recursion; every step consumes at least one input character, so
`fuel = l.length` computes the full scan. -/
def findAllAux : Nat → List Char → List (List Char)
  | _, [] => []
  | 0, _ :: _ => []
  | fuel + 1, c :: rest =>
    match matchCCAt (c :: rest) with
    | some (m, r) => m :: findAllAux fuel r
    | none => findAllAux fuel rest

/-- The loop body of `extract_course_codes`: normalize a match
(`.strip()` then drop trailing `[.,;]+`), then append it unless it is
empty or already collected. -/
def extractStep (codes : List (List Char)) (m : List Char) : List (List Char) :=
  let code := rstripPunct (stripWS m)
  if code ≠ [] ∧ code ∉ codes then codes ++ [code] else codes

/-- Model of `extract_course_codes`: normalized course codes found in `text`, in
first-occurrence order, empty codes and duplicates skipped. -/
def extract_course_codes (text : List Char) : List (List Char) :=
  (findAllAux text.length text).foldl extractStep []

/-- Model of `STANDALONE_NUM_RE.match`, the pattern `^\d+[A-Z]?$` under
`re.IGNORECASE`: one or
more digits followed by at most one letter of either case.  (The segments
this is applied to contain no newline, so `$` is end-of-string.) -/
def standaloneNum (s : List Char) : Bool :=
  let ds := s.takeWhile isDig
  decide (ds ≠ []) &&
    match s.drop ds.length with
    | [] => true
    | [c] => isUp c || isLow c
    | _ => false

/-- The separator regex `\s+and\s+` (case-insensitive) matched at the head
of `l`; returns the length of the separator match. -/
def matchSepAt (l : List Char) : Option Nat :=
  let w1 := l.takeWhile isSpaceC
  if w1 = [] then none
  else
    match l.drop w1.length with
    | a :: n :: d :: rest =>
      if (a = 'a' ∨ a = 'A') ∧ (n = 'n' ∨ n = 'N') ∧ (d = 'd' ∨ d = 'D') then
        let w2 := rest.takeWhile isSpaceC
        if w2 = [] then none else some (w1.length + 3 + w2.length)
      else none
    | _ => none

/-- Model of `re.split(r"\s+and\s+", text, flags=re.IGNORECASE)`: scan for the
leftmost separator, cut, resume after it.  A separator consumes at least
five characters, so `fuel = l.length` computes the full split. -/
def splitAnd : Nat → List Char → List Char → List (List Char)
  | _, cur, [] => [cur]
  | 0, cur, l => [cur ++ l]
  | fuel + 1, cur, c :: rest =>
    match matchSepAt (c :: rest) with
    | some n => cur :: splitAnd fuel [] ((c :: rest).drop n)
    | none => splitAnd fuel (cur ++ [c]) rest

/-- The body of the segment loop of `parse_prereq_raw`: state is the
accumulated OR-groups together with the `last_dept` context. -/
def parseStep (st : List (List (List Char)) × Option (List Char))
    (seg0 : List Char) : List (List (List Char)) × Option (List Char) :=
  let seg := stripWS seg0
  if seg = [] then st
  else
    let codes := extract_course_codes seg
    let codes :=
      if codes.isEmpty then
        match st.2 with
        | some dept =>
          if dept ≠ [] ∧ standaloneNum (rstripPunct seg) then
            [dept ++ ' ' :: stripWS (rstripPunct seg)]
          else []
        | none => []
      else codes
    if codes.isEmpty then st
    else (st.1 ++ [codes], some (firstField (codes.getLastD [])))

/-- Model of `parse_prereq_raw`: parse a raw prerequisite sentence (or its absence)
into the list of OR-groups. -/
def parse_prereq_raw (raw : Option (List Char)) : List (List (List Char)) :=
  match raw with
  | none => []
  | some r =>
    if r = [] ∨ stripWS r = [] then []
    else
      let text0 := stripWS r
      let text1 :=
        if ';' ∈ text0 then stripWS (text0.takeWhile (fun c => c ≠ ';')) else text0
      let text := collapseWS text1
      let segs := splitAnd text.length [] text
      (segs.foldl parseStep ([], none)).1

/-- A catalog course: its code and (already parsed) structured
prerequisites, as consumed by `build_prereq_edges`. -/
structure Course where
  code : List Char
  prereq_structured : List (List (List Char))
deriving DecidableEq

/-- A directed prerequisite edge. -/
structure Edge where
  source : List Char
  target : List Char
  or_group_index : Nat
deriving DecidableEq

/-- Model of `build_prereq_edges`: for every course as target, every OR-group with
its index, every source in the group that is a key of the catalog, emit an
edge. -/
def build_prereq_edges (courses : List Course) : List Edge :=
  courses.flatMap fun course =>
    (course.prereq_structured.enum).flatMap fun p =>
      (p.2.filter fun s => courses.any fun c => decide (c.code = s)).map
        fun s => { source := s, target := course.code, or_group_index := p.1 }

/-- The CourseCode grammar of the specification: 2 to 4 uppercase letters,
exactly one interior space, one or more digits, an optional run of trailing
uppercase letters, and nothing else (in particular no trailing
punctuation). -/
def courseCodeGrammar (s : List Char) : Bool :=
  let d := s.takeWhile isUp
  decide (2 ≤ d.length) && decide (d.length ≤ 4) &&
    match s.drop d.length with
    | ' ' :: rest =>
      let ds := rest.takeWhile isDig
      decide (ds ≠ []) && (rest.drop ds.length).all isUp
    | _ => false

/-- The shape of a shorthand-synthesized code whose case-insensitive
suffix was written in lowercase: 2 to 4 uppercase letters, one space, one
or more digits, exactly one lowercase letter. -/
def lowerShorthandCode (s : List Char) : Bool :=
  let d := s.takeWhile isUp
  decide (2 ≤ d.length) && decide (d.length ≤ 4) &&
    match s.drop d.length with
    | ' ' :: rest =>
      let ds := rest.takeWhile isDig
      decide (ds ≠ []) &&
        match rest.drop ds.length with
        | [c] => isLow c
        | _ => false
    | _ => false

/-- Every code the parser can emit: the CourseCode grammar, relaxed to
allow a single lowercase trailing letter on a synthesized shorthand
code. -/
def relaxedCourseCode (s : List Char) : Bool :=
  courseCodeGrammar s || lowerShorthandCode s

/-- Department-prefix shape: 2 to 4 uppercase letters. -/
def deptShape (d : List Char) : Bool :=
  decide (2 ≤ d.length) && decide (d.length ≤ 4) && d.all isUp

/-- First-occurrence deduplication, written as the specification describes
it: keep each code and delete its later repetitions. -/
def specFirstDedup : List (List Char) → List (List Char)
  | [] => []
  | c :: rest => c :: specFirstDedup (rest.filter fun x => decide (x ≠ c))
termination_by l => l.length
decreasing_by
  exact Nat.lt_succ_of_le (List.length_filter_le _ _)

/-! ## Character-class facts -/

theorem isSpaceC_of_isUp {c : Char} (h : isUp c = true) : isSpaceC c = false := by
  simp [isUp] at h
  simp [isSpaceC]
  omega

theorem isSpaceC_of_isDig {c : Char} (h : isDig c = true) : isSpaceC c = false := by
  simp [isDig] at h
  simp [isSpaceC]
  omega

theorem isSpaceC_of_isLow {c : Char} (h : isLow c = true) : isSpaceC c = false := by
  simp [isLow] at h
  simp [isSpaceC]
  omega

theorem punctC_of_isUp {c : Char} (h : isUp c = true) : punctC c = false := by
  simp [isUp] at h
  simp [punctC]
  omega

theorem punctC_of_isDig {c : Char} (h : isDig c = true) : punctC c = false := by
  simp [isDig] at h
  simp [punctC]
  omega

theorem punctC_of_isLow {c : Char} (h : isLow c = true) : punctC c = false := by
  simp [isLow] at h
  simp [punctC]
  omega

theorem isDig_of_isUp {c : Char} (h : isUp c = true) : isDig c = false := by
  simp [isUp] at h
  simp [isDig]
  omega

theorem isDig_of_isLow {c : Char} (h : isLow c = true) : isDig c = false := by
  simp [isLow] at h
  simp [isDig]
  omega

theorem isUp_space : isUp ' ' = false := by decide

theorem isSpaceC_space : isSpaceC ' ' = true := by decide

/-! ## Generic `takeWhile` / `dropWhile` facts -/

theorem dropWhile_append_cons {α : Type} {p : α → Bool} {c : α} (hc : p c = false)
    (x y : List α) : (x ++ c :: y).dropWhile p = x.dropWhile p ++ c :: y := by
  rw [List.dropWhile_append]
  split
  next h =>
    rw [List.isEmpty_iff] at h
    rw [h, List.nil_append, List.dropWhile_cons_of_neg (by simp [hc])]
  next => rfl

theorem takeWhile_append_all {α : Type} {p : α → Bool} {x : List α}
    (hx : ∀ a ∈ x, p a = true) (y : List α) :
    (x ++ y).takeWhile p = x ++ y.takeWhile p := by
  rw [List.takeWhile_append]
  rw [if_pos]
  rw [List.takeWhile_eq_self_iff.mpr hx]

theorem takeWhile_append_stop {α : Type} {p : α → Bool} {x : List α} {c : α}
    (hx : ∀ a ∈ x, p a = true) (hc : p c = false) (y : List α) :
    (x ++ c :: y).takeWhile p = x := by
  rw [takeWhile_append_all hx, List.takeWhile_cons_of_neg (by simp [hc]), List.append_nil]

theorem dropWhile_append_all {α : Type} {p : α → Bool} {x : List α}
    (hx : ∀ a ∈ x, p a = true) (y : List α) :
    (x ++ y).dropWhile p = y.dropWhile p := by
  induction x with
  | nil => rfl
  | cons a x ih =>
    rw [List.cons_append, List.dropWhile_cons_of_pos (hx a (by simp))]
    exact ih fun b hb => hx b (by simp [hb])

/-! ## `stripWS` and `rstripPunct` facts -/

theorem lstripWS_of_head {c : Char} (hc : isSpaceC c = false) (l : List Char) :
    lstripWS (c :: l) = c :: l := by
  unfold lstripWS
  rw [List.dropWhile_cons_of_neg (by simp [hc])]

theorem rstripWS_concat {c : Char} (hc : isSpaceC c = false) (l : List Char) :
    rstripWS (l ++ [c]) = l ++ [c] := by
  unfold rstripWS
  rw [List.reverse_append, List.reverse_cons, List.reverse_nil, List.nil_append,
    List.cons_append, List.nil_append, List.dropWhile_cons_of_neg (by simp [hc]),
    List.reverse_cons, List.reverse_reverse]

theorem rstripPunct_concat {c : Char} (hc : punctC c = false) (l : List Char) :
    rstripPunct (l ++ [c]) = l ++ [c] := by
  unfold rstripPunct
  rw [List.reverse_append, List.reverse_cons, List.reverse_nil, List.nil_append,
    List.cons_append, List.nil_append, List.dropWhile_cons_of_neg (by simp [hc]),
    List.reverse_cons, List.reverse_reverse]

theorem stripWS_eq_self {c d : Char} (hc : isSpaceC c = false) (hd : isSpaceC d = false)
    (l : List Char) : stripWS (c :: l ++ [d]) = c :: l ++ [d] := by
  unfold stripWS
  rw [show (c :: l ++ [d] : List Char) = c :: (l ++ [d]) by simp,
    lstripWS_of_head hc, show (c :: (l ++ [d]) : List Char) = (c :: l) ++ [d] by simp,
    rstripWS_concat hd]

theorem stripWS_nil : stripWS [] = [] := rfl

theorem stripWS_singleton {c : Char} (hc : isSpaceC c = false) :
    stripWS [c] = [c] := by
  unfold stripWS
  rw [show ([c] : List Char) = c :: [] by rfl, lstripWS_of_head hc]
  exact rstripWS_concat hc []

/-! ## Claim C1 -/

/-- C1 counterexample: on the sentence
`"ECON 100A or ECON 120A or ECE 109; and MATH 20A"` the parser does NOT
return the two-group structure claimed by the specification and the module
docstring, because the text is truncated at the first semicolon. -/
theorem parse_semicolon_clause_not_kept :
    parse_prereq_raw (some ("ECON 100A or ECON 120A or ECE 109; and MATH 20A").data) ≠
      [[("ECON 100A").data, ("ECON 120A").data, ("ECE 109").data],
       [("MATH 20A").data]] := by
  decide

/-- C1 (amended): on the sentence
`"ECON 100A or ECON 120A or ECE 109; and MATH 20A"` the parser keeps only
the clause before the semicolon and returns the single OR-group
`[("ECON 100A", "ECON 120A", "ECE 109")]`; the `"and MATH 20A"` clause
after the semicolon is discarded. -/
theorem parse_semicolon_clause_truncated :
    parse_prereq_raw (some ("ECON 100A or ECON 120A or ECE 109; and MATH 20A").data) =
      [[("ECON 100A").data, ("ECON 120A").data, ("ECE 109").data]] := by
  decide

/-! ## Claim C10 -/

/-- C10: on input `"ABCDE 101"`, whose uppercase run before the space has
five letters, `extract_course_codes` still returns a code formed from the
4-letter suffix of the run: `["BCDE 101"]`. -/
theorem extract_long_run_suffix_code :
    extract_course_codes ("ABCDE 101").data = [("BCDE 101").data] := by
  decide

/-! ## Claim C7 -/

/-- C7: `parse_prereq_raw` returns the empty structure on an absent input
and on any input consisting only of whitespace (which covers the empty
string and `"   "`); this is a normal result of the total function, not an
error. -/
theorem parse_empty_absent_law (s : List Char) (h : s.all isSpaceC = true) :
    parse_prereq_raw none = [] ∧ parse_prereq_raw (some s) = [] := by
  refine ⟨rfl, ?_⟩
  have hstrip : stripWS s = [] := by
    have hl : s.dropWhile isSpaceC = [] :=
      List.dropWhile_eq_nil_iff.mpr (by simpa [List.all_eq_true] using h)
    unfold stripWS lstripWS rstripWS
    rw [hl]
    rfl
  simp [parse_prereq_raw, hstrip]

/-- Witness for C7 at the inputs named by the specification: `""` and
`"   "` are whitespace-only, and both parse to `[]`. -/
theorem parse_empty_absent_law_witness :
    (("").data.all isSpaceC = true ∧
      (parse_prereq_raw none = [] ∧ parse_prereq_raw (some ("").data) = [])) ∧
    (("   ").data.all isSpaceC = true ∧
      (parse_prereq_raw none = [] ∧ parse_prereq_raw (some ("   ").data) = [])) :=
  ⟨⟨by decide, parse_empty_absent_law ("").data (by decide)⟩,
   ⟨by decide, parse_empty_absent_law ("   ").data (by decide)⟩⟩

/-! ## Claim C9 -/

/-- C9: the parser is total (it is a Lean function, defined on every
string-or-absent input), and an AND-segment that yields no extracted codes
and does not satisfy the shorthand rule leaves the loop state unchanged —
it contributes no OR-group; in particular
`parse_prereq_raw "consent of instructor" = []`. -/
theorem parse_total_non_course_dropped
    (st : List (List (List Char)) × Option (List Char)) (seg : List Char)
    (h1 : extract_course_codes (stripWS seg) = [])
    (h2 : ∀ d, st.2 = some d →
      d = [] ∨ standaloneNum (rstripPunct (stripWS seg)) = false) :
    parse_prereq_raw (some ("consent of instructor").data) = [] ∧
      parseStep st seg = st := by
  refine ⟨by decide, ?_⟩
  by_cases hseg : stripWS seg = []
  · simp [parseStep, hseg]
  · cases ost : st.2 with
    | none => simp [parseStep, hseg, h1, ost]
    | some d =>
      rcases h2 d ost with hd | hsn
      · simp [parseStep, hseg, h1, ost, hd]
      · simp [parseStep, hseg, h1, ost, hsn]

/-- Witness for C9: the segment `"consent of instructor"` with the state
`([], some "ECON")` yields no codes, fails the shorthand rule, and is
dropped. -/
theorem parse_total_non_course_dropped_witness :
    (extract_course_codes (stripWS ("consent of instructor").data) = [] ∧
      (∀ d, (([], some ("ECON").data) :
          List (List (List Char)) × Option (List Char)).2 = some d →
        d = [] ∨
          standaloneNum (rstripPunct (stripWS ("consent of instructor").data)) = false)) ∧
    (parse_prereq_raw (some ("consent of instructor").data) = [] ∧
      parseStep ([], some ("ECON").data) ("consent of instructor").data =
        ([], some ("ECON").data)) :=
  ⟨⟨by decide, by intro d hd; right; decide⟩,
   parse_total_non_course_dropped ([], some ("ECON").data)
     ("consent of instructor").data (by decide) (by intro d hd; right; decide)⟩

/-! ## Claim C3 -/

/-- C3: the shorthand carry-over rule.  Concretely,
`parse("ECON 1 and 3.")` yields `[("ECON 1",), ("ECON 3",)]` and
`parse("ECON 1 and 3 and 7A")` yields
`[("ECON 1",), ("ECON 3",), ("ECON 7A",)]`; in general, a segment with no
extracted codes whose punctuation-stripped text matches the standalone
shorthand is synthesized into the single code `dept ++ " " ++ short`,
where `dept` is the carried department context, and the context is updated
to that code's department prefix. -/
theorem parse_shorthand_carry_over
    (res : List (List (List Char))) (dept seg : List Char)
    (hd : dept ≠ [])
    (h1 : extract_course_codes (stripWS seg) = [])
    (h2 : standaloneNum (rstripPunct (stripWS seg)) = true) :
    parse_prereq_raw (some ("ECON 1 and 3.").data) =
      [[("ECON 1").data], [("ECON 3").data]] ∧
    parse_prereq_raw (some ("ECON 1 and 3 and 7A").data) =
      [[("ECON 1").data], [("ECON 3").data], [("ECON 7A").data]] ∧
    parseStep (res, some dept) seg =
      (res ++ [[dept ++ ' ' :: stripWS (rstripPunct (stripWS seg))]],
       some (firstField (dept ++ ' ' :: stripWS (rstripPunct (stripWS seg))))) := by
  refine ⟨by decide, by decide, ?_⟩
  have hseg : stripWS seg ≠ [] := by
    intro hnil
    rw [hnil] at h2
    exact absurd h2 (by decide)
  simp [parseStep, hseg, h1, hd, h2]

/-- Witness for C3: the segment `"3."` after the state carrying department
`"ECON"` synthesizes the code `"ECON 3"`. -/
theorem parse_shorthand_carry_over_witness :
    (("ECON").data ≠ [] ∧
      extract_course_codes (stripWS ("3.").data) = [] ∧
      standaloneNum (rstripPunct (stripWS ("3.").data)) = true) ∧
    parseStep ([[("ECON 1").data]], some ("ECON").data) ("3.").data =
      ([[("ECON 1").data],
        [("ECON").data ++ ' ' :: stripWS (rstripPunct (stripWS ("3.").data))]],
       some (firstField (("ECON").data ++ ' ' ::
         stripWS (rstripPunct (stripWS ("3.").data))))) :=
  ⟨⟨by decide, by decide, by decide⟩,
   (parse_shorthand_carry_over [[("ECON 1").data]] ("ECON").data ("3.").data
     (by decide) (by decide) (by decide)).2.2⟩

/-! ## Claim C4 -/

theorem mem_of_mem_stripWS {a : Char} {l : List Char} (h : a ∈ stripWS l) : a ∈ l := by
  unfold stripWS rstripWS lstripWS at h
  rw [List.mem_reverse] at h
  have h2 := (List.dropWhile_sublist _).subset h
  rw [List.mem_reverse] at h2
  exact (List.dropWhile_sublist _).subset h2

theorem rstripWS_append_stop {c : Char} (hc : isSpaceC c = false) (A t : List Char) :
    rstripWS (A ++ c :: t) = A ++ c :: rstripWS t := by
  unfold rstripWS
  rw [List.reverse_append, List.reverse_cons, List.append_assoc, List.singleton_append,
    dropWhile_append_cons hc, List.reverse_append, List.reverse_cons, List.reverse_reverse,
    List.append_assoc, List.singleton_append]

theorem stripWS_append_semi (s t : List Char) :
    stripWS (s ++ ';' :: t) = lstripWS s ++ ';' :: rstripWS t := by
  unfold stripWS
  rw [show lstripWS (s ++ ';' :: t) = lstripWS s ++ ';' :: t from
    dropWhile_append_cons (by decide) s t]
  exact rstripWS_append_stop (by decide) _ _

theorem stripWS_lstripWS (s : List Char) : stripWS (lstripWS s) = stripWS s := by
  unfold stripWS lstripWS
  rw [List.dropWhile_idempotent]

/-- C4: the truncation law.  Everything at and after the first semicolon
of the input has no effect: for any text `s` not containing a semicolon
and any text `t`, parsing `s ++ ";" ++ t` equals parsing `s` alone. -/
theorem parse_truncation_law (s t : List Char) (hs : ';' ∉ s) :
    parse_prereq_raw (some (s ++ ';' :: t)) = parse_prereq_raw (some s) := by
  have hne : s ++ ';' :: t ≠ [] := by simp
  have hdecomp : stripWS (s ++ ';' :: t) = lstripWS s ++ ';' :: rstripWS t :=
    stripWS_append_semi s t
  have hstrip_ne : stripWS (s ++ ';' :: t) ≠ [] := by
    rw [hdecomp]
    simp
  have hsemi_in : ';' ∈ stripWS (s ++ ';' :: t) := by
    rw [hdecomp]
    simp
  have htake : (stripWS (s ++ ';' :: t)).takeWhile (fun c => decide (c ≠ ';')) =
      lstripWS s := by
    rw [hdecomp]
    refine takeWhile_append_stop ?_ (by simp) _
    intro a ha
    exact decide_eq_true fun heq =>
      hs (heq ▸ (List.dropWhile_sublist isSpaceC).subset ha)
  have hkey : stripWS ((stripWS (s ++ ';' :: t)).takeWhile (fun c => decide (c ≠ ';'))) =
      stripWS s := by
    rw [htake]
    exact stripWS_lstripWS s
  have hsnot : ';' ∉ stripWS s := fun hmem => hs (mem_of_mem_stripWS hmem)
  by_cases hblank : stripWS s = []
  · -- the kept clause is blank on both sides
    have hleft : parse_prereq_raw (some (s ++ ';' :: t)) = [] := by
      simp only [parse_prereq_raw]
      rw [if_neg (by push_neg; exact ⟨hne, hstrip_ne⟩)]
      rw [if_pos hsemi_in, hkey, hblank]
      decide
    rw [hleft]
    simp only [parse_prereq_raw]
    rw [if_pos (Or.inr hblank)]
  · have hsne : s ≠ [] := by
      intro h0
      exact hblank (by rw [h0]; rfl)
    simp only [parse_prereq_raw]
    rw [if_neg (show ¬(s ++ ';' :: t = [] ∨ stripWS (s ++ ';' :: t) = []) by
        push_neg; exact ⟨hne, hstrip_ne⟩)]
    rw [if_pos hsemi_in, hkey]
    rw [if_neg (show ¬(s = [] ∨ stripWS s = []) by push_neg; exact ⟨hsne, hblank⟩)]
    rw [if_neg hsnot]

/-- Witness for C4 at a well-formed pair of requirements and an ignored
clause. -/
theorem parse_truncation_law_witness :
    (';' ∉ ("MATH 20A and CSE 100").data) ∧
    parse_prereq_raw (some (("MATH 20A and CSE 100").data ++ ';' ::
      (" ignored clause").data)) =
      parse_prereq_raw (some ("MATH 20A and CSE 100").data) :=
  ⟨by decide,
   parse_truncation_law ("MATH 20A and CSE 100").data (" ignored clause").data
     (by decide)⟩

/-! ## Claim C5 counterexample -/

/-- C5 counterexample: on input `"ECON 1 and 3a"` the shorthand rule
(whose regex is case-insensitive) synthesizes the code `"ECON 3a"`, which
appears in the output but violates the CourseCode grammar because of its
lowercase trailing letter. -/
theorem output_code_grammar_counterexample :
    parse_prereq_raw (some ("ECON 1 and 3a").data) =
      [[("ECON 1").data], [("ECON 3a").data]] ∧
    courseCodeGrammar ("ECON 3a").data = false :=
  ⟨by decide, by decide⟩

/-! ## Claim C6 -/

theorem mem_enumFrom_iff {α : Type} {l : List α} {n i : Nat} {x : α} :
    (i, x) ∈ List.enumFrom n l ↔ n ≤ i ∧ l[i - n]? = some x := by
  induction l generalizing n with
  | nil => simp [List.enumFrom_nil]
  | cons a l ih =>
    rw [List.enumFrom_cons]
    simp only [List.mem_cons, ih, Prod.mk.injEq]
    constructor
    · rintro (⟨rfl, rfl⟩ | ⟨h1, h2⟩)
      · exact ⟨Nat.le_refl _, by simp⟩
      · refine ⟨Nat.le_of_succ_le h1, ?_⟩
        rw [show i - n = (i - (n + 1)) + 1 by omega, List.getElem?_cons_succ]
        exact h2
    · rintro ⟨h1, h2⟩
      rcases Nat.eq_or_lt_of_le h1 with rfl | hlt
      · left
        refine ⟨rfl, ?_⟩
        simp only [Nat.sub_self, List.getElem?_cons_zero] at h2
        exact (Option.some.inj h2).symm
      · right
        refine ⟨hlt, ?_⟩
        rw [show i - n = (i - (n + 1)) + 1 by omega, List.getElem?_cons_succ] at h2
        exact h2

/-- C6: `build_prereq_edges` emits an edge if and only if its source
occurs at position `or_group_index` of the target course's structure and
the source is a key of the catalog; and on the concrete two-course catalog
named by the specification, `CSE 99` (absent from the catalog) is silently
excluded and exactly one edge is produced. -/
theorem edge_emitted_iff_known_source :
    (∀ (courses : List Course) (e : Edge),
      e ∈ build_prereq_edges courses ↔
        ∃ c, c ∈ courses ∧ e.target = c.code ∧
          (∃ g, c.prereq_structured[e.or_group_index]? = some g ∧ e.source ∈ g) ∧
          e.source ∈ courses.map Course.code) ∧
    build_prereq_edges
        [{ code := ("CSE 12").data,
           prereq_structured := [[("CSE 8B").data, ("CSE 99").data]] },
         { code := ("CSE 8B").data, prereq_structured := [] }] =
      [{ source := ("CSE 8B").data, target := ("CSE 12").data,
         or_group_index := 0 }] := by
  constructor
  · intro courses e
    unfold build_prereq_edges
    rw [List.mem_flatMap]
    constructor
    · rintro ⟨c, hc, he⟩
      rw [List.mem_flatMap] at he
      obtain ⟨⟨j, g⟩, hjg, he2⟩ := he
      rw [List.mem_map] at he2
      obtain ⟨s, hs, hmk⟩ := he2
      rw [List.mem_filter] at hs
      obtain ⟨hsg, hkey⟩ := hs
      have hes : e.source = s := by rw [← hmk]
      have het : e.target = c.code := by rw [← hmk]
      have hei : e.or_group_index = j := by rw [← hmk]
      have henum : c.prereq_structured[j]? = some g := by
        have hm := mem_enumFrom_iff.mp (by simpa [List.enum] using hjg)
        simpa using hm.2
      refine ⟨c, hc, het, ⟨g, ?_, ?_⟩, ?_⟩
      · rw [hei]
        exact henum
      · rw [hes]
        exact hsg
      · rw [List.any_eq_true] at hkey
        obtain ⟨c', hc', heq⟩ := hkey
        rw [List.mem_map]
        exact ⟨c', hc', by rw [hes]; exact of_decide_eq_true heq⟩
    · rintro ⟨c, hc, het, ⟨g, hg, hsg⟩, hkey⟩
      refine ⟨c, hc, ?_⟩
      rw [List.mem_flatMap]
      refine ⟨(e.or_group_index, g), ?_, ?_⟩
      · show _ ∈ List.enumFrom 0 _
        exact mem_enumFrom_iff.mpr ⟨Nat.zero_le _, by simpa using hg⟩
      · rw [List.mem_map]
        refine ⟨e.source, ?_, ?_⟩
        · rw [List.mem_filter]
          refine ⟨hsg, ?_⟩
          rw [List.any_eq_true]
          rw [List.mem_map] at hkey
          obtain ⟨c', hc', hceq⟩ := hkey
          exact ⟨c', hc', decide_eq_true hceq⟩
        · obtain ⟨es, et, ei⟩ := e
          simp only at het
          rw [het]
  · decide

/-! ## Claim C8 -/

/-- The normalization applied to each regex match by
`extract_course_codes`. -/
def normCC (m : List Char) : List Char := rstripPunct (stripWS m)

theorem mem_of_mem_specFirstDedup {x : List Char} :
    ∀ {l : List (List Char)}, x ∈ specFirstDedup l → x ∈ l := by
  intro l
  induction l using specFirstDedup.induct with
  | case1 =>
    intro h
    simp [specFirstDedup] at h
  | case2 c rest ih =>
    intro h
    rw [specFirstDedup] at h
    rcases List.mem_cons.mp h with rfl | h2
    · exact List.mem_cons_self _ _
    · exact List.mem_cons_of_mem _ ((List.mem_filter.mp (ih h2)).1)

theorem specFirstDedup_nodup : ∀ (l : List (List Char)), (specFirstDedup l).Nodup := by
  intro l
  induction l using specFirstDedup.induct with
  | case1 => simp [specFirstDedup]
  | case2 c rest ih =>
    rw [specFirstDedup]
    refine List.nodup_cons.mpr ⟨?_, ih⟩
    intro hc
    have := (List.mem_filter.mp (mem_of_mem_specFirstDedup hc)).2
    simp at this

/-- The membership-guarded append step, after normalization has been
factored out. -/
def dedupStep (cs : List (List Char)) (c : List Char) : List (List Char) :=
  if c ∉ cs then cs ++ [c] else cs

theorem extractStep_eq_dedupStep {m : List Char} (h0 : normCC m ≠ [])
    (acc : List (List Char)) : extractStep acc m = dedupStep acc (normCC m) := by
  unfold extractStep dedupStep normCC
  by_cases hmem : rstripPunct (stripWS m) ∈ acc
  · rw [if_neg (by simp [hmem]), if_neg (by simp [hmem])]
  · rw [if_pos ⟨by simpa [normCC] using h0, hmem⟩, if_pos hmem]

theorem extractStep_eq_of_nil {m : List Char} (h0 : normCC m = [])
    (acc : List (List Char)) : extractStep acc m = acc := by
  unfold extractStep
  rw [if_neg]
  simp [normCC] at h0
  simp [h0]

theorem extract_eq_dedupFold :
    ∀ (ms : List (List Char)) (acc : List (List Char)),
      ms.foldl extractStep acc =
        ((ms.map normCC).filter fun c => decide (c ≠ [])).foldl dedupStep acc := by
  intro ms
  induction ms with
  | nil => intro acc; rfl
  | cons m ms ih =>
    intro acc
    rw [List.foldl_cons, List.map_cons]
    by_cases h0 : normCC m = []
    · rw [List.filter_cons_of_neg (by simp [h0]), extractStep_eq_of_nil h0]
      exact ih acc
    · rw [List.filter_cons_of_pos (by simp [h0]), List.foldl_cons,
        extractStep_eq_dedupStep h0]
      exact ih (dedupStep acc (normCC m))

theorem dedupFold_eq_specFirstDedup :
    ∀ (l : List (List Char)) (acc : List (List Char)),
      l.foldl dedupStep acc = acc ++ specFirstDedup (l.filter fun x => decide (x ∉ acc)) := by
  intro l
  induction l with
  | nil =>
    intro acc
    simp [specFirstDedup]
  | cons c rest ih =>
    intro acc
    rw [List.foldl_cons]
    by_cases hmem : c ∈ acc
    · rw [List.filter_cons_of_neg (by simp [hmem]),
        show dedupStep acc c = acc from if_neg (by simp [hmem])]
      exact ih acc
    · rw [List.filter_cons_of_pos (by simp [hmem]),
        show dedupStep acc c = acc ++ [c] from if_pos hmem, ih (acc ++ [c]),
        specFirstDedup]
      have hfil : rest.filter (fun x => decide (x ∉ acc ++ [c])) =
          (rest.filter fun x => decide (x ∉ acc)).filter fun x => decide (x ≠ c) := by
        rw [List.filter_filter]
        refine List.filter_congr ?_
        intro x hx
        by_cases h1 : x = c <;> by_cases h2 : x ∈ acc <;>
          simp [h1, h2, List.mem_append]
      rw [hfil]
      simp

/-- C8: the list returned by `extract_course_codes` has no repeated code;
it equals the first-occurrence deduplication of the (nonempty) normalized
regex matches in text order, so when the same normalized code matches more
than once only its first occurrence is kept and first-occurrence order is
preserved. -/
theorem extract_no_duplicates (t : List Char) :
    (extract_course_codes t).Nodup ∧
    extract_course_codes t =
      specFirstDedup (((findAllAux t.length t).map normCC).filter
        fun c => decide (c ≠ [])) := by
  have heq : extract_course_codes t =
      specFirstDedup (((findAllAux t.length t).map normCC).filter
        fun c => decide (c ≠ [])) := by
    unfold extract_course_codes
    rw [extract_eq_dedupFold, dedupFold_eq_specFirstDedup]
    rw [List.nil_append, List.filter_eq_self.mpr]
    intro a _
    simp [List.not_mem_nil]
  exact ⟨heq ▸ specFirstDedup_nodup _, heq⟩

/-! ## Claim C2 -/

/-- The catalog-key test of `build_prereq_edges` (`source in
code_to_course`). -/
def keyB (courses : List Course) (s : List Char) : Bool :=
  courses.any fun c => decide (c.code = s)

/-- The edges one course's iteration of `build_prereq_edges` emits, with
the key test abstracted. -/
def perCourseE (kf : List Char → Bool) (c : Course) : List Edge :=
  (c.prereq_structured.enum).flatMap fun p =>
    (p.2.filter kf).map fun s => { source := s, target := c.code, or_group_index := p.1 }

theorem build_eq_perCourseE (courses : List Course) :
    build_prereq_edges courses = courses.flatMap (perCourseE (keyB courses)) := rfl

/-- The predicate selecting the edges of target `T` and group index `i`. -/
def targetP (T : List Char) (i : Nat) (e : Edge) : Bool :=
  decide (e.target = T) && decide (e.or_group_index = i)

theorem filter_targetP_block (kf : List Char → Bool) (T T' : List Char) (i j : Nat)
    (grp : List (List Char)) :
    ((grp.filter kf).map fun s =>
        ({ source := s, target := T', or_group_index := j } : Edge)).filter
      (targetP T i) =
      if T' = T ∧ j = i then
        (grp.filter kf).map fun s =>
          ({ source := s, target := T', or_group_index := j } : Edge)
      else [] := by
  rw [List.filter_map]
  by_cases h : T' = T ∧ j = i
  · rw [if_pos h]
    congr 1
    apply List.filter_eq_self.mpr
    intro a _
    simp [targetP, Function.comp, h.1, h.2]
  · rw [if_neg h]
    rw [List.filter_eq_nil_iff.mpr, List.map_nil]
    intro a _
    rcases not_and_or.mp h with h1 | h1 <;> simp [targetP, Function.comp, h1]

theorem perCourseE_filter_ne (kf : List Char → Bool) (T : List Char) (i : Nat)
    (c : Course) (hne : c.code ≠ T) :
    (perCourseE kf c).filter (targetP T i) = [] := by
  apply List.filter_eq_nil_iff.mpr
  intro e he
  unfold perCourseE at he
  rw [List.mem_flatMap] at he
  obtain ⟨p, _, he2⟩ := he
  rw [List.mem_map] at he2
  obtain ⟨s, _, rfl⟩ := he2
  simp [targetP, hne]

theorem enumFrom_flatMap_filter_lt (kf : List Char → Bool) (T : List Char) (i : Nat) :
    ∀ (l : List (List (List Char))) (n : Nat), i < n →
      (((List.enumFrom n l).flatMap fun p =>
          (p.2.filter kf).map fun s =>
            ({ source := s, target := T, or_group_index := p.1 } : Edge)).filter
        (targetP T i)) = [] := by
  intro l
  induction l with
  | nil =>
    intro n _
    rw [List.enumFrom_nil, List.flatMap_nil]
    rfl
  | cons grp rest ih =>
    intro n hn
    rw [List.enumFrom_cons, List.flatMap_cons, List.filter_append]
    rw [filter_targetP_block, if_neg (by omega), ih (n + 1) (by omega)]
    rfl

theorem enumFrom_flatMap_filter_le (kf : List Char → Bool) (T : List Char) (i : Nat) :
    ∀ (l : List (List (List Char))) (n : Nat), n ≤ i →
      (((List.enumFrom n l).flatMap fun p =>
          (p.2.filter kf).map fun s =>
            ({ source := s, target := T, or_group_index := p.1 } : Edge)).filter
        (targetP T i)) =
      ((l.getD (i - n) []).filter kf).map fun s =>
        ({ source := s, target := T, or_group_index := i } : Edge) := by
  intro l
  induction l with
  | nil =>
    intro n _
    rw [List.enumFrom_nil, List.flatMap_nil, List.getD_nil]
    rfl
  | cons grp rest ih =>
    intro n hn
    rw [List.enumFrom_cons, List.flatMap_cons, List.filter_append]
    rcases Nat.eq_or_lt_of_le hn with rfl | hlt
    · rw [filter_targetP_block, if_pos ⟨rfl, rfl⟩,
        enumFrom_flatMap_filter_lt kf T n rest (n + 1) (by omega),
        Nat.sub_self, List.getD_cons_zero, List.append_nil]
    · rw [filter_targetP_block, if_neg (by omega), List.nil_append,
        ih (n + 1) hlt, show i - n = (i - (n + 1)) + 1 by omega, List.getD_cons_succ]

theorem flatMap_filter_ne_all (kf : List Char → Bool) (T : List Char) (i : Nat) :
    ∀ (iter : List Course), (∀ c ∈ iter, c.code ≠ T) →
      ((iter.flatMap (perCourseE kf)).filter (targetP T i)) = [] := by
  intro iter
  induction iter with
  | nil => intro _; rfl
  | cons c cs ih =>
    intro h
    rw [List.flatMap_cons, List.filter_append, perCourseE_filter_ne kf T i c
      (h c (by simp)), List.nil_append]
    exact ih fun c' hc' => h c' (by simp [hc'])

theorem flatMap_filter_mem (kf : List Char → Bool) (i : Nat) (course : Course) :
    ∀ (iter : List Course), course ∈ iter → (iter.map Course.code).Nodup →
      ((iter.flatMap (perCourseE kf)).filter (targetP course.code i)) =
      ((course.prereq_structured.getD i []).filter kf).map fun s =>
        ({ source := s, target := course.code, or_group_index := i } : Edge) := by
  intro iter
  induction iter with
  | nil => intro h _; exact absurd h (List.not_mem_nil _)
  | cons c cs ih =>
    intro hmem hnd
    rw [List.map_cons, List.nodup_cons] at hnd
    rw [List.flatMap_cons, List.filter_append]
    rcases List.mem_cons.mp hmem with rfl | hmem2
    · have hrest : ∀ c' ∈ cs, c'.code ≠ course.code := by
        intro c' hc' heq
        exact hnd.1 (heq ▸ List.mem_map_of_mem Course.code hc')
      rw [flatMap_filter_ne_all kf course.code i cs hrest, List.append_nil]
      unfold perCourseE
      have h0 : course.prereq_structured.enum =
          List.enumFrom 0 course.prereq_structured := rfl
      rw [h0, enumFrom_flatMap_filter_le kf course.code i course.prereq_structured 0
        (Nat.zero_le i), Nat.sub_zero]
    · have hcne : c.code ≠ course.code := by
        intro heq
        exact hnd.1 (heq ▸ List.mem_map_of_mem Course.code hmem2)
      rw [perCourseE_filter_ne kf course.code i c hcne, List.nil_append]
      exact ih hmem2 hnd.2

/-- C2: for a catalog (course codes pairwise distinct) and a course in it,
the edges emitted with that course as target and a fixed
`or_group_index i`, in emission order, have as sources exactly the `i`-th
OrGroup of the course's `prereq_structured` restricted to codes that are
keys of the catalog, in original order (and no edges exist for an index
beyond the structure).  The restriction performs no deduplication, so a
code occurring twice in one OrGroup yields two identical edges. -/
theorem edge_grouping_reconstruction (courses : List Course) (course : Course)
    (hnd : (courses.map Course.code).Nodup) (hmem : course ∈ courses) (i : Nat) :
    ((build_prereq_edges courses).filter
        (fun e => decide (e.target = course.code) && decide (e.or_group_index = i))).map
      Edge.source =
    (course.prereq_structured.getD i []).filter
      fun s => decide (s ∈ courses.map Course.code) := by
  rw [build_eq_perCourseE]
  rw [show (fun e => decide (e.target = course.code) && decide (e.or_group_index = i)) =
    targetP course.code i from rfl]
  rw [flatMap_filter_mem (keyB courses) i course courses hmem hnd]
  rw [List.map_map]
  rw [show (Edge.source ∘ fun s =>
    ({ source := s, target := course.code, or_group_index := i } : Edge)) = id from rfl]
  rw [List.map_id]
  refine List.filter_congr ?_
  intro s _
  unfold keyB
  by_cases h : s ∈ courses.map Course.code
  · rw [decide_eq_true h]
    rw [List.mem_map] at h
    obtain ⟨c, hc, hceq⟩ := h
    exact List.any_eq_true.mpr ⟨c, hc, decide_eq_true hceq⟩
  · rw [decide_eq_false h]
    apply Bool.eq_false_iff.mpr
    intro hany
    obtain ⟨c, hc, hceq⟩ := List.any_eq_true.mp hany
    exact h (List.mem_map.mpr ⟨c, hc, of_decide_eq_true hceq⟩)

/-- Witness for C2 on a concrete catalog whose structure contains a
duplicated source inside one OrGroup and an unknown code: the duplicate
yields two identical edges, the unknown code none. -/
theorem edge_grouping_reconstruction_witness :
    (([{ code := ("CSE 12").data,
          prereq_structured := [[("CSE 8B").data, ("CSE 8B").data, ("CSE 99").data]] },
        { code := ("CSE 8B").data, prereq_structured := [] }].map Course.code).Nodup ∧
      ({ code := ("CSE 12").data,
         prereq_structured := [[("CSE 8B").data, ("CSE 8B").data, ("CSE 99").data]] } :
        Course) ∈
        [{ code := ("CSE 12").data,
           prereq_structured := [[("CSE 8B").data, ("CSE 8B").data, ("CSE 99").data]] },
         { code := ("CSE 8B").data, prereq_structured := [] }]) ∧
    ((build_prereq_edges
        [{ code := ("CSE 12").data,
           prereq_structured := [[("CSE 8B").data, ("CSE 8B").data, ("CSE 99").data]] },
         { code := ("CSE 8B").data, prereq_structured := [] }]).filter
      (fun e => decide (e.target = ("CSE 12").data) && decide (e.or_group_index = 0))).map
      Edge.source = [("CSE 8B").data, ("CSE 8B").data] := by
  refine ⟨⟨by decide, by decide⟩, ?_⟩
  rw [edge_grouping_reconstruction _
    { code := ("CSE 12").data,
      prereq_structured := [[("CSE 8B").data, ("CSE 8B").data, ("CSE 99").data]] }
    (by decide) (by decide) 0]
  decide

/-! ## Claim C5: the code-shape invariant -/

/-- The decomposed shape of every raw match of `COURSE_CODE_RE`. -/
def GoodCode (c : List Char) : Prop :=
  ∃ d digs sufs, c = d ++ ' ' :: (digs ++ sufs) ∧ 2 ≤ d.length ∧ d.length ≤ 4 ∧
    (∀ a ∈ d, isUp a = true) ∧ digs ≠ [] ∧ (∀ a ∈ digs, isDig a = true) ∧
    (∀ a ∈ sufs, isUp a = true)

theorem ccTryK_shape {k : Nat} {l m r : List Char} (h : ccTryK k l = some (m, r)) :
    ∃ d digs sufs, m = d ++ ' ' :: (digs ++ sufs) ∧ d.length = k ∧
      (∀ a ∈ d, isUp a = true) ∧ digs ≠ [] ∧ (∀ a ∈ digs, isDig a = true) ∧
      (∀ a ∈ sufs, isUp a = true) := by
  simp only [ccTryK] at h
  split at h
  next hcond =>
    split at h
    next rest hdrop =>
      split at h
      next => exact absurd h (by simp)
      next hdigs =>
        rw [Option.some.injEq, Prod.mk.injEq] at h
        refine ⟨l.take k, rest.takeWhile isDig,
          (rest.drop (rest.takeWhile isDig).length).takeWhile isUp,
          h.1.symm, hcond.1, ?_, hdigs, ?_, ?_⟩
        · intro a ha
          exact (List.all_eq_true.mp hcond.2) a ha
        · intro a ha
          exact List.mem_takeWhile_imp ha
        · intro a ha
          exact List.mem_takeWhile_imp ha
    next => exact absurd h (by simp)
  next => exact absurd h (by simp)

theorem matchCCAt_shape {l m r : List Char} (h : matchCCAt l = some (m, r)) :
    GoodCode m := by
  unfold matchCCAt at h
  split at h
  next h4 =>
    obtain ⟨d, digs, sufs, he, hk, hrest⟩ := ccTryK_shape (h4.trans h)
    exact ⟨d, digs, sufs, he, by omega, by omega, hrest⟩
  next =>
    split at h
    next h3 =>
      obtain ⟨d, digs, sufs, he, hk, hrest⟩ := ccTryK_shape (h3.trans h)
      exact ⟨d, digs, sufs, he, by omega, by omega, hrest⟩
    next =>
      obtain ⟨d, digs, sufs, he, hk, hrest⟩ := ccTryK_shape h
      exact ⟨d, digs, sufs, he, by omega, by omega, hrest⟩

theorem findAllAux_shape :
    ∀ (fuel : Nat) (l m : List Char), m ∈ findAllAux fuel l → GoodCode m := by
  intro fuel
  induction fuel with
  | zero =>
    intro l m h
    cases l <;> simp [findAllAux] at h
  | succ fuel ih =>
    intro l m h
    cases l with
    | nil => simp [findAllAux] at h
    | cons c rest =>
      rw [findAllAux] at h
      cases hm : matchCCAt (c :: rest) with
      | none =>
        rw [hm] at h
        exact ih rest m h
      | some pr =>
        obtain ⟨m0, r⟩ := pr
        rw [hm] at h
        rcases List.mem_cons.mp h with rfl | h2
        · exact matchCCAt_shape hm
        · exact ih r m h2

theorem rstripPunct_of_all {l : List Char} (h : ∀ a ∈ l, punctC a = false) :
    rstripPunct l = l := by
  cases l with
  | nil => rfl
  | cons a l2 =>
    unfold rstripPunct
    cases hr : (a :: l2).reverse with
    | nil => exact absurd hr (by simp)
    | cons b r2 =>
      have hb : b ∈ a :: l2 := by
        rw [← List.mem_reverse, hr]
        simp
      rw [List.dropWhile_cons_of_neg (by simp [h b hb]), ← hr, List.reverse_reverse]

theorem stripWS_of_all {l : List Char} (h : ∀ a ∈ l, isSpaceC a = false) :
    stripWS l = l := by
  cases l with
  | nil => rfl
  | cons a l2 =>
    unfold stripWS lstripWS rstripWS
    rw [List.dropWhile_cons_of_neg (by simp [h a (by simp)])]
    cases hr : (a :: l2).reverse with
    | nil => exact absurd hr (by simp)
    | cons b r2 =>
      have hb : b ∈ a :: l2 := by
        rw [← List.mem_reverse, hr]
        simp
      rw [List.dropWhile_cons_of_neg (by simp [h b hb]), ← hr, List.reverse_reverse]

theorem stripWS_eq_self_ends {a lb : Char} (ha : isSpaceC a = false)
    (hlb : isSpaceC lb = false) (mid : List Char) :
    stripWS (a :: mid ++ [lb]) = a :: mid ++ [lb] := by
  unfold stripWS
  rw [show (a :: mid ++ [lb] : List Char) = a :: (mid ++ [lb]) by simp,
    lstripWS_of_head ha, show (a :: (mid ++ [lb]) : List Char) = (a :: mid) ++ [lb] by simp,
    rstripWS_concat hlb]

/-- A `GoodCode` decomposition gives a concrete first and last character. -/
theorem GoodCode.ends {m : List Char} (h : GoodCode m) :
    ∃ a mid lb, m = a :: mid ++ [lb] ∧ isUp a = true ∧
      isSpaceC lb = false ∧ punctC lb = false := by
  obtain ⟨d, digs, sufs, rfl, h2, _, hd, hdig0, hdig, hsuf⟩ := h
  have hdne : d ≠ [] := by
    intro h0
    rw [h0] at h2
    simp at h2
  obtain ⟨a, d2, rfl⟩ := List.exists_cons_of_ne_nil hdne
  have ha : isUp a = true := hd a (by simp)
  rcases List.eq_nil_or_concat sufs with rfl | ⟨S, b, rfl⟩
  · obtain ⟨L, b, rfl⟩ := (List.eq_nil_or_concat digs).resolve_left hdig0
    have hb : isDig b = true := hdig b (by simp [List.concat_eq_append])
    refine ⟨a, d2 ++ ' ' :: L, b, ?_, ha, isSpaceC_of_isDig hb, punctC_of_isDig hb⟩
    simp [List.concat_eq_append]
  · have hb : isUp b = true := hsuf b (by simp [List.concat_eq_append])
    refine ⟨a, d2 ++ ' ' :: (digs ++ S), b, ?_, ha, isSpaceC_of_isUp hb,
      punctC_of_isUp hb⟩
    simp [List.concat_eq_append]

/-- Normalization is the identity on a raw `COURSE_CODE_RE` match. -/
theorem normCC_of_goodCode {m : List Char} (h : GoodCode m) : normCC m = m := by
  obtain ⟨a, mid, lb, rfl, ha, hlbs, hlbp⟩ := h.ends
  unfold normCC
  rw [stripWS_eq_self_ends (isSpaceC_of_isUp ha) hlbs,
    show (a :: mid ++ [lb] : List Char) = (a :: mid) ++ [lb] by simp,
    rstripPunct_concat hlbp]

theorem takeWhile_isDig_stops {sufs : List Char} (h : ∀ a ∈ sufs, isUp a = true) :
    sufs.takeWhile isDig = [] := by
  cases sufs with
  | nil => rfl
  | cons a l =>
    rw [List.takeWhile_cons_of_neg]
    simp [isDig_of_isUp (h a (by simp))]

theorem courseCodeGrammar_of_parts {d digs sufs : List Char}
    (h2 : 2 ≤ d.length) (h4 : d.length ≤ 4) (hd : ∀ a ∈ d, isUp a = true)
    (hdig0 : digs ≠ []) (hdig : ∀ a ∈ digs, isDig a = true)
    (hsuf : ∀ a ∈ sufs, isUp a = true) :
    courseCodeGrammar (d ++ ' ' :: (digs ++ sufs)) = true := by
  have htw : (d ++ ' ' :: (digs ++ sufs)).takeWhile isUp = d :=
    takeWhile_append_stop hd (by decide) _
  have htd : (digs ++ sufs).takeWhile isDig = digs := by
    rw [takeWhile_append_all hdig, takeWhile_isDig_stops hsuf, List.append_nil]
  simp only [courseCodeGrammar, htw, List.drop_left]
  rw [htd]
  have hds : (digs ++ sufs).drop digs.length = sufs := List.drop_left digs sufs
  rw [hds]
  simp [h2, h4, hdig0, List.all_eq_true.mpr hsuf]

theorem lowerShorthandCode_of_parts {d digs : List Char} {c : Char}
    (h2 : 2 ≤ d.length) (h4 : d.length ≤ 4) (hd : ∀ a ∈ d, isUp a = true)
    (hdig0 : digs ≠ []) (hdig : ∀ a ∈ digs, isDig a = true) (hc : isLow c = true) :
    lowerShorthandCode (d ++ ' ' :: (digs ++ [c])) = true := by
  have htw : (d ++ ' ' :: (digs ++ [c])).takeWhile isUp = d :=
    takeWhile_append_stop hd (by decide) _
  have htd : (digs ++ [c]).takeWhile isDig = digs := by
    rw [takeWhile_append_all hdig, List.takeWhile_cons_of_neg (by simp [isDig_of_isLow hc]),
      List.append_nil]
  simp only [lowerShorthandCode, htw, List.drop_left]
  rw [htd]
  have hds : (digs ++ [c]).drop digs.length = [c] := List.drop_left digs [c]
  rw [hds]
  simp [h2, h4, hdig0, hc]

theorem firstField_of_parts {d : List Char} (hne : d ≠ [])
    (hd : ∀ a ∈ d, isSpaceC a = false) (rest : List Char) :
    firstField (d ++ ' ' :: rest) = d := by
  unfold firstField
  obtain ⟨a, d2, rfl⟩ := List.exists_cons_of_ne_nil hne
  rw [List.cons_append, List.dropWhile_cons_of_neg (by simp [hd a (by simp)]),
    ← List.cons_append]
  exact takeWhile_append_stop (by intro x hx; simp [hd x hx]) (by decide) rest

theorem relaxedCourseCode_of_goodCode {m : List Char} (h : GoodCode m) :
    relaxedCourseCode m = true := by
  obtain ⟨d, digs, sufs, rfl, h2, h4, hd, hdig0, hdig, hsuf⟩ := h
  unfold relaxedCourseCode
  rw [courseCodeGrammar_of_parts h2 h4 hd hdig0 hdig hsuf, Bool.true_or]

theorem firstField_deptShape_of_goodCode {m : List Char} (h : GoodCode m) :
    deptShape (firstField m) = true := by
  obtain ⟨d, digs, sufs, rfl, h2, h4, hd, hdig0, hdig, hsuf⟩ := h
  have hdne : d ≠ [] := by
    intro h0
    rw [h0] at h2
    simp at h2
  rw [firstField_of_parts hdne (fun a ha => isSpaceC_of_isUp (hd a ha)) _]
  simp [deptShape, h2, h4, List.all_eq_true.mpr hd]

theorem getLastD_mem {α : Type} (d : α) (l : List α) (h : l ≠ []) :
    l.getLastD d ∈ l := by
  rw [List.getLastD_eq_getLast?, List.getLast?_eq_getLast l h]
  exact List.getLast_mem h

theorem mem_foldl_extractStep :
    ∀ (ms : List (List Char)) (acc : List (List Char)) (c : List Char),
      c ∈ ms.foldl extractStep acc → c ∈ acc ∨ ∃ m ∈ ms, c = normCC m := by
  intro ms
  induction ms with
  | nil =>
    intro acc c h
    exact Or.inl h
  | cons m ms ih =>
    intro acc c h
    rw [List.foldl_cons] at h
    rcases ih (extractStep acc m) c h with h2 | ⟨m0, hm0, rfl⟩
    · simp only [extractStep] at h2
      by_cases h3 : rstripPunct (stripWS m) ≠ [] ∧ rstripPunct (stripWS m) ∉ acc
      · rw [if_pos h3] at h2
        rcases List.mem_append.mp h2 with h4 | h4
        · exact Or.inl h4
        · rw [List.mem_singleton] at h4
          exact Or.inr ⟨m, by simp, h4⟩
      · rw [if_neg h3] at h2
        exact Or.inl h2
    · exact Or.inr ⟨m0, by simp [hm0], rfl⟩

theorem extract_mem_good {t c : List Char} (h : c ∈ extract_course_codes t) :
    GoodCode c := by
  unfold extract_course_codes at h
  rcases mem_foldl_extractStep _ _ _ h with h0 | ⟨m, hm, rfl⟩
  · exact absurd h0 (List.not_mem_nil c)
  · have hg := findAllAux_shape _ _ _ hm
    rw [show normCC m = m from normCC_of_goodCode hg]
    exact hg

theorem takeWhile_append_drop_len {p : Char → Bool} :
    ∀ l : List Char, l.takeWhile p ++ l.drop (l.takeWhile p).length = l := by
  intro l
  induction l with
  | nil => rfl
  | cons a l ih =>
    by_cases hpa : p a = true
    · rw [List.takeWhile_cons_of_pos hpa, List.length_cons, List.cons_append,
        List.drop_succ_cons, ih]
    · rw [List.takeWhile_cons_of_neg (by simp [hpa])]
      rfl

theorem standaloneNum_parts {s : List Char} (h : standaloneNum s = true) :
    ∃ digs tail, s = digs ++ tail ∧ digs ≠ [] ∧ (∀ a ∈ digs, isDig a = true) ∧
      (tail = [] ∨ ∃ c, tail = [c] ∧ (isUp c = true ∨ isLow c = true)) := by
  simp only [standaloneNum, Bool.and_eq_true] at h
  obtain ⟨h1, h2⟩ := h
  refine ⟨s.takeWhile isDig, s.drop (s.takeWhile isDig).length,
    (takeWhile_append_drop_len s).symm, by simpa using h1,
    fun a ha => List.mem_takeWhile_imp ha, ?_⟩
  cases hdrop : s.drop (s.takeWhile isDig).length with
  | nil => exact Or.inl rfl
  | cons c tl =>
    cases tl with
    | nil =>
      rw [hdrop] at h2
      exact Or.inr ⟨c, rfl, by simpa [Bool.or_eq_true] using h2⟩
    | cons c2 tl2 =>
      rw [hdrop] at h2
      simp at h2

theorem shorthand_code_facts {d s : List Char} (hdept : deptShape d = true)
    (hsn : standaloneNum s = true) :
    relaxedCourseCode (d ++ ' ' :: s) = true ∧ stripWS s = s ∧
      firstField (d ++ ' ' :: s) = d := by
  have hparts : 2 ≤ d.length ∧ d.length ≤ 4 ∧ ∀ a ∈ d, isUp a = true := by
    simpa [deptShape, List.all_eq_true, and_assoc] using hdept
  obtain ⟨h2, h4, hdall⟩ := hparts
  obtain ⟨digs, tail, rfl, hdig0, hdig, htail⟩ := standaloneNum_parts hsn
  refine ⟨?_, ?_, ?_⟩
  · unfold relaxedCourseCode
    rcases htail with rfl | ⟨c, rfl, hc | hc⟩
    · rw [courseCodeGrammar_of_parts h2 h4 hdall hdig0 hdig
        (by intro a ha; simp at ha), Bool.true_or]
    · rw [courseCodeGrammar_of_parts h2 h4 hdall hdig0 hdig ?hs, Bool.true_or]
      case hs =>
        intro a ha
        rw [List.mem_singleton] at ha
        rw [ha]
        exact hc
    · rw [lowerShorthandCode_of_parts h2 h4 hdall hdig0 hdig hc, Bool.or_true]
  · apply stripWS_of_all
    intro a ha
    rcases List.mem_append.mp ha with ha | ha
    · exact isSpaceC_of_isDig (hdig a ha)
    · rcases htail with rfl | ⟨c, rfl, hc⟩
      · exact absurd ha (List.not_mem_nil a)
      · rw [List.mem_singleton] at ha
        subst ha
        rcases hc with hc2 | hc2
        · exact isSpaceC_of_isUp hc2
        · exact isSpaceC_of_isLow hc2
  · refine firstField_of_parts ?_ (fun a ha => isSpaceC_of_isUp (hdall a ha)) _
    intro h0
    rw [h0] at h2
    simp at h2

/-- The invariant carried through the segment loop of `parse_prereq_raw`:
every emitted code satisfies the relaxed grammar, and the department
context (when present) is 2 to 4 uppercase letters. -/
def StOk (st : List (List (List Char)) × Option (List Char)) : Prop :=
  (∀ g ∈ st.1, ∀ c ∈ g, relaxedCourseCode c = true) ∧
  ∀ d, st.2 = some d → deptShape d = true

theorem parseStep_ok (st : List (List (List Char)) × Option (List Char))
    (seg : List Char) (h : StOk st) : StOk (parseStep st seg) := by
  by_cases hseg : stripWS seg = []
  · rw [show parseStep st seg = st by simp [parseStep, hseg]]
    exact h
  cases hc : extract_course_codes (stripWS seg) with
  | nil =>
    cases ost : st.2 with
    | none =>
      rw [show parseStep st seg = st by simp [parseStep, hseg, hc, ost]]
      exact h
    | some d =>
      have hdsh : deptShape d = true := h.2 d ost
      have hdne : d ≠ [] := by
        intro h0
        rw [h0] at hdsh
        simp [deptShape] at hdsh
      by_cases hsn : standaloneNum (rstripPunct (stripWS seg)) = true
      · obtain ⟨hrel, hstr, hff⟩ := shorthand_code_facts hdsh hsn
        have hstep : parseStep st seg =
            (st.1 ++ [[d ++ ' ' :: stripWS (rstripPunct (stripWS seg))]],
             some (firstField (d ++ ' ' :: stripWS (rstripPunct (stripWS seg))))) := by
          simp [parseStep, hseg, hc, ost, hdne, hsn]
        rw [hstep]
        constructor
        · intro g hg c hcm
          rcases List.mem_append.mp hg with hg | hg
          · exact h.1 g hg c hcm
          · rw [List.mem_singleton] at hg
            subst hg
            rw [List.mem_singleton] at hcm
            subst hcm
            rw [hstr]
            exact hrel
        · intro d' hd'
          simp only [Option.some.injEq] at hd'
          rw [← hd', hstr, hff]
          exact hdsh
      · have hsn' : standaloneNum (rstripPunct (stripWS seg)) = false :=
          Bool.eq_false_iff.mpr hsn
        rw [show parseStep st seg = st by simp [parseStep, hseg, hc, ost, hsn']]
        exact h
  | cons c0 cs =>
    have hstep : parseStep st seg =
        (st.1 ++ [c0 :: cs], some (firstField ((c0 :: cs).getLastD []))) := by
      simp [parseStep, hseg, hc]
    rw [hstep]
    constructor
    · intro g hg c hcm
      rcases List.mem_append.mp hg with hg | hg
      · exact h.1 g hg c hcm
      · rw [List.mem_singleton] at hg
        subst hg
        have hmem : c ∈ extract_course_codes (stripWS seg) := by
          rw [hc]
          exact hcm
        exact relaxedCourseCode_of_goodCode (extract_mem_good hmem)
    · intro d' hd'
      simp only [Option.some.injEq] at hd'
      have hlast : (c0 :: cs).getLastD [] ∈ extract_course_codes (stripWS seg) := by
        rw [hc]
        exact getLastD_mem _ _ (by simp)
      rw [← hd']
      exact firstField_deptShape_of_goodCode (extract_mem_good hlast)

theorem foldl_parseStep_ok :
    ∀ (segs : List (List Char)) (st : List (List (List Char)) × Option (List Char)),
      StOk st → StOk (segs.foldl parseStep st) := by
  intro segs
  induction segs with
  | nil => intro st h; exact h
  | cons s ss ih =>
    intro st h
    exact ih _ (parseStep_ok st s h)

/-- C5 (amended): every course-code string appearing in any OrGroup of
`parse_prereq_raw`'s output satisfies the CourseCode grammar relaxed to
also allow a synthesized shorthand code ending in one lowercase letter
(2 to 4 uppercase letters, exactly one interior space, one or more digits,
then either an uppercase run or a single lowercase letter, and no trailing
punctuation). -/
theorem output_codes_relaxed_grammar (raw : Option (List Char))
    (g : List (List Char)) (c : List Char)
    (hg : g ∈ parse_prereq_raw raw) (hc : c ∈ g) :
    relaxedCourseCode c = true := by
  cases raw with
  | none => exact absurd hg (List.not_mem_nil g)
  | some r =>
    simp only [parse_prereq_raw] at hg
    by_cases hcond : r = [] ∨ stripWS r = []
    · rw [if_pos hcond] at hg
      exact absurd hg (List.not_mem_nil g)
    · rw [if_neg hcond] at hg
      have hinit : StOk ([], none) := by
        constructor
        · intro g0 hg0
          exact absurd hg0 (List.not_mem_nil g0)
        · intro d hd
          exact absurd hd (by simp)
      exact (foldl_parseStep_ok _ ([], none) hinit).1 g hg c hc

/-- Witness for C5 (amended) at the counterexample input: the synthesized
code `"ECON 3a"` satisfies the relaxed grammar. -/
theorem output_codes_relaxed_grammar_witness :
    ([("ECON 3a").data] ∈ parse_prereq_raw (some ("ECON 1 and 3a").data) ∧
      ("ECON 3a").data ∈ [("ECON 3a").data]) ∧
    relaxedCourseCode ("ECON 3a").data = true :=
  ⟨⟨by decide, by decide⟩,
   output_codes_relaxed_grammar (some ("ECON 1 and 3a").data) [("ECON 3a").data]
     ("ECON 3a").data (by decide) (by decide)⟩

end UcsdPrereqs
